import Mathlib

/-!
Verification development for the indradb graph datastore library.

The definitions below are shallow embeddings of the Rust sources:
* `src/lib/src/models/json.rs` — the `Json` newtype with its hash and
  partial-comparison functions over `serde_json::Value`;
* `src/lib/src/traits.rs` — the default `Datastore::bulk_insert`
  implementation over the abstract `Transaction` capability;
* the in-memory storage engine, which is not part of the sources at hand
  and is therefore modelled from the specification (each such definition
  carries a doc comment starting with `Modelled from the spec:`).

Machine integers are embedded as `Nat`/`Int` with explicit range
hypotheses where they matter; fallible operations return `Except`.
-/

namespace IndraDB

/-! ### serde_json numbers

`serde_json::Number` (without the arbitrary-precision feature) is one of
`PosInt(u64)`, `NegInt(i64)` (always negative by construction), or
`Float(f64)`.  We embed the float by its raw 64-bit pattern so that the
hash function's treatment of NaN payloads is representable. -/

def u64Size : Nat := 2 ^ 64

def i64MaxNat : Nat := 2 ^ 63 - 1

inductive JNumber where
  | posInt (n : Nat)
  | negInt (v : Int)
  | float (bits : Nat)
deriving DecidableEq, Repr

/-- Embedding of `serde_json::Number::is_i64`: a `PosInt` within the
`i64` range, or any `NegInt`. -/
def JNumber.isI64 : JNumber → Bool
  | .posInt n => decide (n ≤ i64MaxNat)
  | .negInt _ => true
  | .float _ => false

/-- Embedding of `serde_json::Number::is_u64`: exactly the `PosInt`s. -/
def JNumber.isU64 : JNumber → Bool
  | .posInt _ => true
  | .negInt _ => false
  | .float _ => false

/-- Embedding of `as_i64().unwrap()`; only used under an `isI64` guard,
mirroring the Rust branch structure (the `float` case is unreachable
there and is given a junk value). -/
def JNumber.asI64 : JNumber → Int
  | .posInt n => (n : Int)
  | .negInt v => v
  | .float _ => 0

/-- Embedding of `as_u64().unwrap()`; only used under an `isU64` guard. -/
def JNumber.asU64 : JNumber → Nat
  | .posInt n => n
  | .negInt _ => 0
  | .float _ => 0

/-- Embedding of `serde_json::Number::from(v: i64)`: a negative value
becomes `NegInt`, a nonnegative one `PosInt`. -/
def mkI64 (a : Int) : JNumber :=
  if a < 0 then .negInt a else .posInt a.toNat

/-! ### IEEE-754 binary64 values

An `f64` is decoded from its bit pattern into one of: NaN, an infinity,
or a finite rational value.  IEEE comparison on non-NaN doubles agrees
with the comparison of the denoted extended reals (`-0.0` and `+0.0`
both decode to `0` and hence compare equal, as in IEEE). -/

inductive FVal where
  | nan
  | negInf
  | posInf
  | fin (q : ℚ)
deriving DecidableEq, Repr

/-- Two to an integer power, as a rational. -/
def twoPowQ (z : Int) : ℚ :=
  if 0 ≤ z then ((2 ^ z.toNat : ℕ) : ℚ) else 1 / ((2 ^ (-z).toNat : ℕ) : ℚ)

/-- Does a 64-bit pattern denote a NaN (exponent all ones, nonzero
fraction)? -/
def isNaNBits (bits : Nat) : Bool :=
  decide (bits / 2 ^ 52 % 2 ^ 11 = 2047) && decide (bits % 2 ^ 52 ≠ 0)

/-- Decode a 64-bit IEEE-754 pattern into the value it denotes. -/
def decodeF64 (bits : Nat) : FVal :=
  let sign : Nat := bits / 2 ^ 63 % 2
  let ex : Nat := bits / 2 ^ 52 % 2 ^ 11
  let frac : Nat := bits % 2 ^ 52
  if ex = 2047 then
    if frac = 0 then (if sign = 1 then .negInf else .posInf) else .nan
  else
    let mag : ℚ :=
      if ex = 0 then (frac : ℚ) * twoPowQ (-1074)
      else ((2 ^ 52 + frac : ℕ) : ℚ) * twoPowQ ((ex : Int) - 1075)
    .fin (if sign = 1 then -mag else mag)

/-- Comparison of `Nat`s as an `Ordering` (Rust `u64::partial_cmp`). -/
def ncmp (a b : Nat) : Ordering :=
  if a < b then .lt else if b < a then .gt else .eq

/-- Comparison of `Int`s as an `Ordering` (Rust `i64::partial_cmp`). -/
def icmp (a b : Int) : Ordering :=
  if a < b then .lt else if b < a then .gt else .eq

/-- Comparison of rationals as an `Ordering`. -/
def qcmp (a b : ℚ) : Ordering :=
  if a < b then .lt else if b < a then .gt else .eq

/-- Embedding of `f64::partial_cmp`: `None` exactly when an operand is
NaN, otherwise the order of the denoted extended reals. -/
def fcmp : FVal → FVal → Option Ordering
  | .nan, _ => none
  | _, .nan => none
  | .negInf, .negInf => some .eq
  | .negInf, _ => some .lt
  | _, .negInf => some .gt
  | .posInf, .posInf => some .eq
  | .posInf, _ => some .gt
  | _, .posInf => some .lt
  | .fin a, .fin b => some (qcmp a b)

/-- Embedding of the float case of `as_f64().unwrap()`. -/
def JNumber.floatVal : JNumber → FVal
  | .float bits => decodeF64 bits
  | .posInt n => .fin n
  | .negInt v => .fin v

/-- Embedding of the number arm of `partial_cmp` in
`src/lib/src/models/json.rs` (lines 51–86), following the Rust branch
structure on `is_i64`/`is_u64` and the `i64`/`u64` `try_from`
conversions exactly.

Integer-to-`f64` casts (`v as f64`) are modelled as the exact rational
injection; this is exact for magnitudes up to `2^53`, and no theorem
below depends on the rounding of larger casts (NaN propagation and the
`try_from` branches are unaffected by it). -/
def cmpNumber (a b : JNumber) : Option Ordering :=
  if a.isI64 then
    if b.isI64 then some (icmp a.asI64 b.asI64)
    else if b.isU64 then
      -- i64::try_from(u64) succeeds exactly when the u64 fits in i64
      if b.asU64 ≤ i64MaxNat then some (icmp a.asI64 (b.asU64 : Int))
      else some .lt
    else fcmp (.fin a.asI64) b.floatVal
  else if a.isU64 then
    if b.isI64 then
      -- u64::try_from(i64) succeeds exactly when the i64 is nonnegative
      if 0 ≤ b.asI64 then some (ncmp a.asU64 b.asI64.toNat)
      else some .gt
    else if b.isU64 then some (ncmp a.asU64 b.asU64)
    else fcmp (.fin a.asU64) b.floatVal
  else
    if b.isI64 then fcmp a.floatVal (.fin b.asI64)
    else if b.isU64 then fcmp a.floatVal (.fin b.asU64)
    else fcmp a.floatVal b.floatVal

/-! ### Json values -/

inductive JValue where
  | null
  | bool (b : Bool)
  | num (n : JNumber)
  | str (s : String)
  | arr (xs : List JValue)
  | obj (entries : List (String × JValue))
deriving Repr

/-- Embedding of Rust `bool::partial_cmp` (always `Some`): `false < true`. -/
def bcmp : Bool → Bool → Ordering
  | false, true => .lt
  | true, false => .gt
  | _, _ => .eq

/-- Lexicographic comparison of character lists by scalar value; Rust
compares `String`s by UTF-8 bytes, which orders identically to Unicode
scalar values. -/
def lexOrd : List Char → List Char → Ordering
  | [], [] => .eq
  | [], _ :: _ => .lt
  | _ :: _, [] => .gt
  | c :: cs, d :: ds =>
    match ncmp c.toNat d.toNat with
    | .eq => lexOrd cs ds
    | o => o

/-- Embedding of Rust `String::partial_cmp` (always `Some`). -/
def strCmp (a b : String) : Ordering :=
  lexOrd a.data b.data

mutual

/-- Embedding of `partial_cmp` in `src/lib/src/models/json.rs`
(lines 47–103).  Cross-variant comparisons fall to the catch-all `None`. -/
def cmpValue : JValue → JValue → Option Ordering
  | .null, .null => some .eq
  | .bool a, .bool b => some (bcmp a b)
  | .num a, .num b => cmpNumber a b
  | .str a, .str b => some (strCmp a b)
  | .arr a, .arr b => cmpArr a b
  | .obj a, .obj b => cmpObj a b
  | _, _ => none

/-- Embedding of `partial_cmp_by` (lines 105–132) applied to array
elements: first exhausted operand is `Less`, first non-`Equal` element
comparison decides (including `None`). -/
def cmpArr : List JValue → List JValue → Option Ordering
  | [], [] => some .eq
  | [], _ :: _ => some .lt
  | _ :: _, [] => some .gt
  | x :: xs, y :: ys =>
    match cmpValue x y with
    | some .eq => cmpArr xs ys
    | r => r

/-- Embedding of `partial_cmp_by` applied to object entries with the
key-then-value comparator of lines 92–99. -/
def cmpObj : List (String × JValue) → List (String × JValue) → Option Ordering
  | [], [] => some .eq
  | [], _ :: _ => some .lt
  | _ :: _, [] => some .gt
  | (k1, v1) :: xs, (k2, v2) :: ys =>
    match (match strCmp k1 k2 with | .eq => cmpValue v1 v2 | o => some o) with
    | some .eq => cmpObj xs ys
    | r => r

end

/-- Embedding of `impl PartialEq for Json` (lines 163–167): equality is
the partial comparison returning `Equal`. -/
def jsonEq (a b : JValue) : Bool :=
  cmpValue a b == some .eq

/-! ### Hashing

The Rust `hash` function (json.rs lines 7–45) feeds a `Hasher`.  We
model the hasher state abstractly as the list of tokens written to it:
each token stands for the byte sequence the corresponding Rust `Hash`
impl writes (`write_u8` for tags, the native `i64`/`u64`/`bool`/`String`
hashes for payloads). -/

inductive HashTok where
  | tag (b : Nat)
  | hi (v : Int)
  | hu (v : Nat)
  | hb (b : Bool)
  | hs (s : String)
deriving DecidableEq, Repr

mutual

/-- Embedding of `hash` in `src/lib/src/models/json.rs` (lines 7–45). -/
def hashValue : JValue → List HashTok
  | .null => [.tag 0]
  | .bool b => [.tag 1, .hb b]
  | .num n =>
    .tag 2 ::
      (if n.isI64 then [.hi n.asI64]
       else if n.isU64 then [.hu n.asU64]
       else match n with
            | .float bits => [.hu bits]
            | _ => [])
  | .str s => [.tag 3, .hs s]
  | .arr xs => .tag 4 :: hashArr xs
  | .obj es => .tag 5 :: hashObjEntries es

/-- Tokens written for the elements of an array, in order. -/
def hashArr : List JValue → List HashTok
  | [] => []
  | x :: xs => hashValue x ++ hashArr xs

/-- Tokens written for the entries of an object: each key then its
value, in stored order. -/
def hashObjEntries : List (String × JValue) → List HashTok
  | [] => []
  | (k, v) :: es => .hs k :: (hashValue v ++ hashObjEntries es)

end

/-- Variant tag byte written by `hash` for each `serde_json::Value`
variant. -/
def variantIdx : JValue → Nat
  | .null => 0
  | .bool _ => 1
  | .num _ => 2
  | .str _ => 3
  | .arr _ => 4
  | .obj _ => 5

mutual

/-- Does a value contain a NaN float anywhere inside it? -/
def hasNaN : JValue → Bool
  | .null => false
  | .bool _ => false
  | .num n => match n with
    | .float bits => isNaNBits bits
    | _ => false
  | .str _ => false
  | .arr xs => hasNaNArr xs
  | .obj es => hasNaNObjEntries es

def hasNaNArr : List JValue → Bool
  | [] => false
  | x :: xs => hasNaN x || hasNaNArr xs

def hasNaNObjEntries : List (String × JValue) → Bool
  | [] => false
  | (_, v) :: es => hasNaN v || hasNaNObjEntries es

end

/-! ### The in-memory storage engine

The engine's source (`memory.rs`) is not among the files at hand; only
its trait declarations (`traits.rs`) and its tests (`tests/edge.rs`)
are.  The definitions in this section are therefore modelled from the
specification, §§4.3–4.5. -/

/-- Edge type names and property names.  The spec's `Identifier`
validation (length and character class) is not load-bearing for any
claim below, so identifiers are embedded as plain strings. -/
abbrev Ident := String

/-- Modelled from the spec: a directed, typed edge triple
`{outbound_id, t, inbound_id}` (§3, "Edge"). -/
structure GEdge where
  out : Nat
  t : Ident
  inb : Nat
deriving DecidableEq, Repr

/-- Modelled from the spec: a vertex record `{id, t}` (§3, "Vertex"). -/
structure GVertex where
  id : Nat
  t : Ident
deriving DecidableEq, Repr

/-- Modelled from the spec: an adjacency-index row
`(vertex_id, type, creation_ts, other_id)` (§4.4). -/
structure EdgeEntry where
  out : Nat
  t : Ident
  ts : Nat
  inb : Nat
deriving DecidableEq, Repr

/-- The edge triple denoted by an adjacency-index row. -/
def EdgeEntry.toEdge (en : EdgeEntry) : GEdge :=
  ⟨en.out, en.t, en.inb⟩

/-- Modelled from the spec: `EdgeDirection` (§6). -/
inductive EdgeDirection where
  | outbound
  | inbound
deriving DecidableEq, Repr

mutual

/-- Modelled from the spec: the `VertexQuery` AST (§4.2). -/
inductive VertexQuery where
  | range (startId : Nat) (t : Option Ident) (limit : Nat)
  | specific (ids : List Nat)
  | pipe (inner : EdgeQuery) (dir : EdgeDirection) (t : Option Ident) (limit : Nat)

/-- Modelled from the spec: the `EdgeQuery` AST (§4.2).  The `high`/`low`
bounds restrict creation timestamps to the window `(low, high]`. -/
inductive EdgeQuery where
  | specific (edges : List GEdge)
  | pipe (inner : VertexQuery) (dir : EdgeDirection) (t : Option Ident) (limit : Nat)
      (high : Option Nat) (low : Option Nat)

end

/-- Modelled from the spec: the in-memory engine state (§4.4) — vertex
table, adjacency entries, the two property tables, and the id and
timestamp counters.  The two adjacency indexes hold exactly one row per
edge each, keyed by opposite sides; since both rows carry the same four
fields, the model stores each edge's row once in `edges` and scans it by
the relevant side.  `edges` is kept newest-first, so that a scan of the
rows at a fixed vertex reads in descending creation-timestamp order as
§4.5 requires. -/
structure MemStore where
  verts : List (Nat × Ident)
  edges : List EdgeEntry
  vprops : List ((Nat × Ident) × JValue)
  eprops : List ((GEdge × Ident) × JValue)
  nextId : Nat
  nextTs : Nat
deriving Repr

/-- Modelled from the spec: the empty datastore; ids start at 1 since
zero is reserved (§3, "Vertex identity"). -/
def MemStore.empty : MemStore :=
  ⟨[], [], [], [], 1, 0⟩

/-- Look up a vertex's type in the vertex table. -/
def lookupVert (s : MemStore) (id : Nat) : Option Ident :=
  (s.verts.find? (fun p => p.1 == id)).map (fun p => p.2)

/-- Modelled from the spec: `create_vertex` allocates the next id and
inserts into the vertex table (§4.4). -/
def createVertex (t : Ident) (s : MemStore) : Nat × MemStore :=
  (s.nextId, { s with verts := (s.nextId, t) :: s.verts, nextId := s.nextId + 1 })

/-- Does an adjacency row for this triple exist? -/
def tripleExists (s : MemStore) (e : GEdge) : Bool :=
  s.edges.any (fun en => en.toEdge == e)

/-- Modelled from the spec: `create_edge(o,t,i)` — if either endpoint is
missing return `false`; if the triple already exists leave the existing
timestamp and return `true`; otherwise generate a fresh timestamp,
insert the row, and return `true` (§4.4). -/
def createEdge (e : GEdge) (s : MemStore) : Bool × MemStore :=
  if (lookupVert s e.out).isNone || (lookupVert s e.inb).isNone then (false, s)
  else if tripleExists s e then (true, s)
  else (true, { s with edges := ⟨e.out, e.t, s.nextTs, e.inb⟩ :: s.edges,
                       nextTs := s.nextTs + 1 })

/-- Does a type filter accept this type? -/
def typeOk (t : Option Ident) (x : Ident) : Bool :=
  match t with
  | some t0 => x == t0
  | none => true

/-- Is a creation timestamp within the window `(low, high]`? -/
def tsOk (high low : Option Nat) (ts : Nat) : Bool :=
  (match high with | some h => decide (ts ≤ h) | none => true) &&
  (match low with | some l => decide (l < ts) | none => true)

/-- The vertex id on the chosen side of an adjacency row: the scan side
itself (outbound rows are keyed by `out`, inbound rows by `inb`). -/
def EdgeEntry.sideId (dir : EdgeDirection) (en : EdgeEntry) : Nat :=
  match dir with
  | .outbound => en.out
  | .inbound => en.inb

/-- The endpoint of an edge on the chosen side. -/
def GEdge.endpoint (dir : EdgeDirection) (e : GEdge) : Nat :=
  match dir with
  | .outbound => e.out
  | .inbound => e.inb

/-- First-seen-order deduplication of a list. -/
def dedupFirst : List Nat → List Nat
  | [] => []
  | x :: xs => x :: (dedupFirst (xs.filter (fun y => y != x)))
termination_by l => l.length
decreasing_by exact Nat.lt_succ_of_le (List.length_filter_le _ _)

mutual

/-- Modelled from the spec: evaluation of a root `VertexQuery` (§4.5) —
`Range` iterates the vertex table ascending from `start` with the type
filter, stopping at `limit`; `Specific` emits the listed ids that exist,
in input order; `Pipe` projects the inner edges to their endpoints on
the chosen side, deduplicates preserving first-seen order, drops
endpoints that no longer exist, filters by vertex type, and truncates. -/
def getVertices (q : VertexQuery) (s : MemStore) : List GVertex :=
  match q with
  | .range startId t limit =>
    ((((s.verts.filter (fun p => decide (startId ≤ p.1) && typeOk t p.2)).map
        (fun p => GVertex.mk p.1 p.2)).mergeSort (fun a b => a.id ≤ b.id)).take limit)
  | .specific ids =>
    ids.filterMap (fun id => (lookupVert s id).map (fun t => GVertex.mk id t))
  | .pipe inner dir t limit =>
    (((dedupFirst ((getEdges inner s).map (fun e => e.endpoint dir))).filterMap
        (fun id => (lookupVert s id).map (fun ty => GVertex.mk id ty))).filter
      (fun v => typeOk t v.t)).take limit

/-- Modelled from the spec: evaluation of a root `EdgeQuery` (§4.5) —
`Specific` keeps the listed edges that exist, in input order; `Pipe`
scans the adjacency rows at each inner vertex in descending
creation-timestamp order, applies the timestamp window and type filter,
emits up to `limit` per source vertex, and concatenates per-source
results in source order. -/
def getEdges (q : EdgeQuery) (s : MemStore) : List GEdge :=
  match q with
  | .specific es => es.filter (fun e => tripleExists s e)
  | .pipe inner dir t limit high low =>
    (getVertices inner s).flatMap (fun v =>
      ((((s.edges.filter (fun en => en.sideId dir == v.id)).filter
          (fun en => tsOk high low en.ts && typeOk t en.t)).take limit).map
        (fun en => en.toEdge)))

end

/-- Modelled from the spec: `delete_edges` resolves the queried edges,
removes their rows from the adjacency indexes, and removes their
property rows (§4.4). -/
def deleteEdges (q : EdgeQuery) (s : MemStore) : MemStore :=
  let es := getEdges q s
  { s with edges := s.edges.filter (fun en => !(es.contains en.toEdge)),
           eprops := s.eprops.filter (fun p => !(es.contains p.1.1)) }

/-- Modelled from the spec: `set_vertex_properties` upserts the named
property to the given value for every vertex selected by the query
(§4.3). -/
def setVertexProps (q : VertexQuery) (name : Ident) (v : JValue) (s : MemStore) : MemStore :=
  let ids := (getVertices q s).map (fun w => w.id)
  { s with vprops :=
      ids.foldl (fun acc id =>
        ((id, name), v) :: acc.filter (fun p => p.1 != (id, name))) s.vprops }

/-- Modelled from the spec: `set_edge_properties` upserts the named
property for every edge selected by the query (§4.3). -/
def setEdgeProps (q : EdgeQuery) (name : Ident) (v : JValue) (s : MemStore) : MemStore :=
  let es := getEdges q s
  { s with eprops :=
      es.foldl (fun acc e =>
        ((e, name), v) :: acc.filter (fun p => p.1 != (e, name))) s.eprops }

/-! ### Bulk insertion (`src/lib/src/traits.rs`)

`Datastore::bulk_insert` is a provided method generic over any
`Transaction` implementation; it is embedded here parametrically over
the transaction's operations, with the transaction state threaded
explicitly.  Returning the state alongside the `Result` models the
commit-on-drop semantics: whatever state the transaction reached when
the method returned — normally or via `?` — is what gets committed. -/

/-- Embedding of `BulkInsertItem`, with each payload as
`Datastore::bulk_insert` consumes it (traits.rs lines 29–49): a vertex
type for `Vertex`, an edge triple for `Edge`, and an id/triple plus name
and value for the property items. -/
inductive BulkInsertItem where
  | vertex (t : Ident)
  | edge (e : GEdge)
  | vertexProperty (id : Nat) (name : Ident) (value : JValue)
  | edgeProperty (e : GEdge) (name : Ident) (value : JValue)

/-- Is this item a `Vertex` item? -/
def BulkInsertItem.isVertex : BulkInsertItem → Bool
  | .vertex _ => true
  | _ => false

/-- Embedding of `BulkInsertResult`. -/
structure BulkInsertResult where
  idRange : Option (Nat × Nat)
deriving DecidableEq, Repr

/-- Modelled from the spec: the error kinds of §7. -/
inductive GError where
  | invalidValue
  | notFound
  | uuidTaken
  | outOfRange
  | backendError
  | serializationError
deriving DecidableEq, Repr

/-- The `Transaction` operations `bulk_insert` calls, as explicit
state-passing functions (traits.rs lines 64–169 declares them; the
state type and error type are parameters since `bulk_insert` is generic
over the implementation). -/
structure TransOps (σ ε : Type) where
  createVertexOp : Ident → σ → Except ε (Nat × σ)
  createEdgeOp : GEdge → σ → Except ε (Bool × σ)
  setVertexPropsOp : VertexQuery → Ident → JValue → σ → Except ε σ
  setEdgePropsOp : EdgeQuery → Ident → JValue → σ → Except ε σ

/-- Embedding of the loop body of `Datastore::bulk_insert` (traits.rs
lines 26–53): process the items in order, threading the transaction
state and the running `id_range`; on the first error, return it together
with the state reached so far.  Property items address their target
through a `Specific` single-element query, as in the source. -/
def bulkLoop (ops : TransOps σ ε) :
    List BulkInsertItem → σ → Option (Nat × Nat) → Except ε BulkInsertResult × σ
  | [], s, r => (.ok ⟨r⟩, s)
  | .vertex t :: rest, s, r =>
    match ops.createVertexOp t s with
    | .error e => (.error e, s)
    | .ok (id, s2) =>
      bulkLoop ops rest s2
        (match r with
         | some (startId, _) => some (startId, id)
         | none => some (id, id))
  | .edge ed :: rest, s, r =>
    match ops.createEdgeOp ed s with
    | .error e => (.error e, s)
    | .ok (_, s2) => bulkLoop ops rest s2 r
  | .vertexProperty id name v :: rest, s, r =>
    match ops.setVertexPropsOp (.specific [id]) name v s with
    | .error e => (.error e, s)
    | .ok s2 => bulkLoop ops rest s2 r
  | .edgeProperty ed name v :: rest, s, r =>
    match ops.setEdgePropsOp (.specific [ed]) name v s with
    | .error e => (.error e, s)
    | .ok s2 => bulkLoop ops rest s2 r

/-- Embedding of `Datastore::bulk_insert`: the loop starting from
`id_range = None` on a fresh transaction state. -/
def bulkInsert (ops : TransOps σ ε) (items : List BulkInsertItem) (s : σ) :
    Except ε BulkInsertResult × σ :=
  bulkLoop ops items s none

/-- The single `Transaction` call an item triggers, returning the new
state or the call's error. -/
def stepItem (ops : TransOps σ ε) : BulkInsertItem → σ → Except ε σ
  | .vertex t, s => (ops.createVertexOp t s).map (fun p => p.2)
  | .edge ed, s => (ops.createEdgeOp ed s).map (fun p => p.2)
  | .vertexProperty id name v, s => ops.setVertexPropsOp (.specific [id]) name v s
  | .edgeProperty ed name v, s => ops.setEdgePropsOp (.specific [ed]) name v s

/-- The ids `create_vertex` returns for the `Vertex` items along a run,
in processing order (cut short at the first error). -/
def vertexIds (ops : TransOps σ ε) : List BulkInsertItem → σ → List Nat
  | [], _ => []
  | .vertex t :: rest, s =>
    match ops.createVertexOp t s with
    | .error _ => []
    | .ok (id, s2) => id :: vertexIds ops rest s2
  | .edge ed :: rest, s =>
    match ops.createEdgeOp ed s with
    | .error _ => []
    | .ok (_, s2) => vertexIds ops rest s2
  | .vertexProperty id name v :: rest, s =>
    match ops.setVertexPropsOp (.specific [id]) name v s with
    | .error _ => []
    | .ok s2 => vertexIds ops rest s2
  | .edgeProperty ed name v :: rest, s =>
    match ops.setEdgePropsOp (.specific [ed]) name v s with
    | .error _ => []
    | .ok s2 => vertexIds ops rest s2

/-- How the running `id_range` accumulator evolves over the vertex ids
assigned after it: the first id fixes the start, each later id replaces
the end. -/
def rangeAfter : Option (Nat × Nat) → List Nat → Option (Nat × Nat)
  | r, [] => r
  | none, v :: vs => rangeAfter (some (v, v)) vs
  | some (startId, _), v :: vs => rangeAfter (some (startId, v)) vs

/-- The in-memory engine's operations, as used by `bulk_insert`.
Modelled from the spec: none of these calls fail on the in-memory
engine (§7: `create_edge` returning `false` for missing endpoints is a
successful result; property upserts on missing targets are no-ops). -/
def memOps : TransOps MemStore GError where
  createVertexOp := fun t s => .ok (createVertex t s)
  createEdgeOp := fun e s => .ok (createEdge e s)
  setVertexPropsOp := fun q name v s => .ok (setVertexProps q name v s)
  setEdgePropsOp := fun q name v s => .ok (setEdgeProps q name v s)

/-- A transaction whose vertex creation fails once a capacity of two is
reached; used to exercise `bulk_insert` error paths concretely. -/
def cappedOps : TransOps Nat GError where
  createVertexOp := fun _ s => if 2 ≤ s then .error .outOfRange else .ok (s + 1, s + 1)
  createEdgeOp := fun _ s => .ok (true, s)
  setVertexPropsOp := fun _ _ _ s => .ok s
  setEdgePropsOp := fun _ _ _ s => .ok s

/-- Modelled from the spec: the invariant that every adjacency row's
endpoints exist in the vertex table (§3, "Invariants"). -/
def endpointsWf (s : MemStore) : Prop :=
  ∀ en ∈ s.edges, (lookupVert s en.out).isSome ∧ (lookupVert s en.inb).isSome

/-- Modelled from the spec: the invariant that at most one adjacency row
exists per edge triple (§3, "Edge": at most one edge per
(outbound, type, inbound)). -/
def dupFree (s : MemStore) : Prop :=
  s.edges.Pairwise (fun a b => a.toEdge ≠ b.toEdge)

/-! ## Theorems -/

section BulkTheorems

variable {σ ε : Type}

/-- Folding no ids over a range accumulator leaves it unchanged. -/
theorem rangeAfter_nil (r : Option (Nat × Nat)) : rangeAfter r [] = r := by
  cases r with
  | none => rfl
  | some p => obtain ⟨a, b⟩ := p; rfl

/-- If a run of the loop over a list of items succeeds, the resulting
`id_range` is the accumulator folded over the vertex ids assigned
along the run. -/
theorem bulkLoop_idRange (ops : TransOps σ ε) (items : List BulkInsertItem) :
    ∀ (s : σ) (r : Option (Nat × Nat)) (res : BulkInsertResult) (sf : σ),
      bulkLoop ops items s r = (.ok res, sf) →
      res.idRange = rangeAfter r (vertexIds ops items s) := by
  induction items with
  | nil =>
    intro s r res sf h
    simp only [bulkLoop] at h
    obtain ⟨h1, _⟩ := Prod.mk.injEq .. ▸ h
    cases h1
    rw [show vertexIds ops [] s = [] from rfl, rangeAfter_nil]
  | cons item rest ih =>
    intro s r res sf h
    cases item with
    | vertex t =>
      simp only [bulkLoop] at h
      cases hop : ops.createVertexOp t s with
      | error e => rw [hop] at h; simp at h
      | ok p =>
        obtain ⟨id, s2⟩ := p
        rw [hop] at h
        simp only [vertexIds, hop]
        rw [ih _ _ _ _ h]
        cases r with
        | none => rfl
        | some p2 => obtain ⟨a, b⟩ := p2; rfl
    | edge ed =>
      simp only [bulkLoop] at h
      cases hop : ops.createEdgeOp ed s with
      | error e => rw [hop] at h; simp at h
      | ok p =>
        obtain ⟨b, s2⟩ := p
        rw [hop] at h
        simp only [vertexIds, hop]
        exact ih _ _ _ _ h
    | vertexProperty id name v =>
      simp only [bulkLoop] at h
      cases hop : ops.setVertexPropsOp (.specific [id]) name v s with
      | error e => rw [hop] at h; simp at h
      | ok s2 =>
        rw [hop] at h
        simp only [vertexIds, hop]
        exact ih _ _ _ _ h
    | edgeProperty ed name v =>
      simp only [bulkLoop] at h
      cases hop : ops.setEdgePropsOp (.specific [ed]) name v s with
      | error e => rw [hop] at h; simp at h
      | ok s2 =>
        rw [hop] at h
        simp only [vertexIds, hop]
        exact ih _ _ _ _ h

/-- Folding further ids over an already-started range keeps the start
and moves the end to the last id. -/
theorem rangeAfter_some (vs : List Nat) :
    ∀ (startId en : Nat), rangeAfter (some (startId, en)) vs = some (startId, vs.getLastD en) := by
  induction vs with
  | nil => intro startId en; rfl
  | cons v vs ih =>
    intro startId en
    simp only [rangeAfter, ih, List.getLastD_cons]

/-- Folding a nonempty id list over an empty range yields the first and
last ids. -/
theorem rangeAfter_none (v : Nat) (vs : List Nat) :
    rangeAfter none (v :: vs) = some (v, vs.getLastD v) := by
  simp only [rangeAfter, rangeAfter_some]

/-- A run over items none of which is a `Vertex` item assigns no vertex
ids. -/
theorem vertexIds_nil_of_no_vertex (ops : TransOps σ ε) (items : List BulkInsertItem) :
    ∀ (s : σ), (∀ it ∈ items, it.isVertex = false) → vertexIds ops items s = [] := by
  induction items with
  | nil => intro s _; rfl
  | cons item rest ih =>
    intro s hall
    cases item with
    | vertex t =>
      have hv := hall (.vertex t) (List.mem_cons_self ..)
      simp [BulkInsertItem.isVertex] at hv
    | edge ed =>
      simp only [vertexIds]
      cases hop : ops.createEdgeOp ed s with
      | error e => rfl
      | ok p =>
        obtain ⟨b, s2⟩ := p
        exact ih s2 (fun it hit => hall it (List.mem_cons_of_mem _ hit))
    | vertexProperty id name v =>
      simp only [vertexIds]
      cases hop : ops.setVertexPropsOp (.specific [id]) name v s with
      | error e => rfl
      | ok s2 => exact ih s2 (fun it hit => hall it (List.mem_cons_of_mem _ hit))
    | edgeProperty ed name v =>
      simp only [vertexIds]
      cases hop : ops.setEdgePropsOp (.specific [ed]) name v s with
      | error e => rfl
      | ok s2 => exact ih s2 (fun it hit => hall it (List.mem_cons_of_mem _ hit))

/-- If a run of the loop succeeds and no item is a `Vertex` item, the
accumulator is returned unchanged. -/
theorem bulkLoop_idRange_const (ops : TransOps σ ε) (items : List BulkInsertItem)
    (s : σ) (r : Option (Nat × Nat)) (res : BulkInsertResult) (sf : σ)
    (hall : ∀ it ∈ items, it.isVertex = false)
    (h : bulkLoop ops items s r = (.ok res, sf)) :
    res.idRange = r := by
  rw [bulkLoop_idRange ops items s r res sf h,
    vertexIds_nil_of_no_vertex ops items s hall, rangeAfter_nil]

/-- C3: if any item's `Transaction` call errors, `bulk_insert` stops at
that item and returns the error, and every effect of the items processed
before it remains in the committed state (the transaction is not rolled
back; it commits on drop). -/
theorem bulkInsert_abort_on_error (ops : TransOps σ ε) (pre : List BulkInsertItem)
    (bad : BulkInsertItem) (rest : List BulkInsertItem) (s s2 : σ)
    (r2 : Option (Nat × Nat)) (err : ε)
    (hpre : bulkLoop ops pre s none = (.ok ⟨r2⟩, s2))
    (hbad : stepItem ops bad s2 = .error err) :
    bulkInsert ops (pre ++ bad :: rest) s = (.error err, s2) := by
  have main : ∀ (pre2 : List BulkInsertItem) (s0 : σ) (r0 : Option (Nat × Nat)),
      bulkLoop ops pre2 s0 r0 = (.ok ⟨r2⟩, s2) →
      bulkLoop ops (pre2 ++ bad :: rest) s0 r0 = (.error err, s2) := by
    intro pre2
    induction pre2 with
    | nil =>
      intro s0 r0 h
      simp only [bulkLoop] at h
      obtain ⟨-, h2⟩ := Prod.mk.injEq .. ▸ h
      subst h2
      cases bad with
      | vertex t =>
        simp only [stepItem] at hbad
        cases hop : ops.createVertexOp t s0 with
        | error e => rw [hop] at hbad; cases hbad; simp [bulkLoop, hop]
        | ok p => rw [hop] at hbad; simp [Except.map] at hbad
      | edge ed =>
        simp only [stepItem] at hbad
        cases hop : ops.createEdgeOp ed s0 with
        | error e => rw [hop] at hbad; cases hbad; simp [bulkLoop, hop]
        | ok p => rw [hop] at hbad; simp [Except.map] at hbad
      | vertexProperty id name v =>
        simp only [stepItem] at hbad
        cases hop : ops.setVertexPropsOp (.specific [id]) name v s0 with
        | error e => rw [hop] at hbad; cases hbad; simp [bulkLoop, hop]
        | ok s3 => rw [hop] at hbad; cases hbad
      | edgeProperty ed name v =>
        simp only [stepItem] at hbad
        cases hop : ops.setEdgePropsOp (.specific [ed]) name v s0 with
        | error e => rw [hop] at hbad; cases hbad; simp [bulkLoop, hop]
        | ok s3 => rw [hop] at hbad; cases hbad
    | cons item pre3 ih =>
      intro s0 r0 h
      cases item with
      | vertex t =>
        simp only [bulkLoop] at h ⊢
        cases hop : ops.createVertexOp t s0 with
        | error e => rw [hop] at h; simp at h
        | ok p => obtain ⟨id, s3⟩ := p; rw [hop] at h; exact ih _ _ h
      | edge ed =>
        simp only [bulkLoop] at h ⊢
        cases hop : ops.createEdgeOp ed s0 with
        | error e => rw [hop] at h; simp at h
        | ok p => obtain ⟨b, s3⟩ := p; rw [hop] at h; exact ih _ _ h
      | vertexProperty id name v =>
        simp only [bulkLoop] at h ⊢
        cases hop : ops.setVertexPropsOp (.specific [id]) name v s0 with
        | error e => rw [hop] at h; simp at h
        | ok s3 => rw [hop] at h; exact ih _ _ h
      | edgeProperty ed name v =>
        simp only [bulkLoop] at h ⊢
        cases hop : ops.setEdgePropsOp (.specific [ed]) name v s0 with
        | error e => rw [hop] at h; simp at h
        | ok s3 => rw [hop] at h; exact ih _ _ h
  exact main pre s none hpre

/-- Witness for C3: with a capacity-two vertex allocator, inserting four
vertices fails at the third item, returns `OutOfRange`, and leaves the
two allocations made before the failure committed. -/
theorem bulkInsert_abort_on_error_witness :
    bulkInsert cappedOps
      ([.vertex "a", .vertex "b"] ++ .vertex "c" :: [.vertex "d"]) 0 =
      (.error .outOfRange, 2) :=
  bulkInsert_abort_on_error cappedOps [.vertex "a", .vertex "b"] (.vertex "c")
    [.vertex "d"] 0 2 (some (1, 2)) .outOfRange (by rfl) (by rfl)

/-- C4: when `bulk_insert` succeeds and at least one `Vertex` item was
processed, the returned `id_range` is `Some (first, last)` where `first`
is the id assigned to the first `Vertex` item and `last` the id assigned
to the most recent one. -/
theorem bulkInsert_idRange_spec (ops : TransOps σ ε) (items : List BulkInsertItem)
    (s sf : σ) (res : BulkInsertResult) (v : Nat) (vs : List Nat)
    (hrun : bulkInsert ops items s = (.ok res, sf))
    (hids : vertexIds ops items s = v :: vs) :
    res.idRange = some (v, vs.getLastD v) := by
  rw [bulkLoop_idRange ops items s none res sf hrun, hids, rangeAfter_none]

/-- Witness for C4: bulk-inserting two vertices into the empty in-memory
store assigns ids 1 and 2 and reports `id_range = Some (1, 2)`. -/
theorem bulkInsert_idRange_spec_witness :
    (⟨some (1, 2)⟩ : BulkInsertResult).idRange = some (1, [2].getLastD 1) :=
  bulkInsert_idRange_spec memOps [.vertex "a", .vertex "b"] MemStore.empty
    ((bulkInsert memOps [.vertex "a", .vertex "b"] MemStore.empty).2)
    ⟨some (1, 2)⟩ 1 [2] (by rfl) (by rfl)

/-- C9: an `Edge` item whose `create_edge` call returns `Ok(false)` —
as happens when an endpoint is missing — neither aborts the batch nor
surfaces an error: the boolean is discarded and the loop continues with
the remaining items. -/
theorem bulkInsert_edge_item_skipped (ops : TransOps σ ε) (ed : GEdge)
    (rest : List BulkInsertItem) (s s2 : σ) (r : Option (Nat × Nat))
    (hedge : ops.createEdgeOp ed s = .ok (false, s2)) :
    bulkLoop ops (.edge ed :: rest) s r = bulkLoop ops rest s2 r := by
  simp only [bulkLoop, hedge]

/-- Witness for C9: in a store holding only vertex 1, an edge item
aimed at the missing vertex 0 is skipped and the following vertex item
is still processed, so the batch succeeds. -/
theorem bulkInsert_edge_item_skipped_witness :
    bulkLoop memOps (.edge ⟨1, "e", 0⟩ :: [.vertex "b"])
        (createVertex "v" MemStore.empty).2 none =
      bulkLoop memOps [.vertex "b"] (createVertex "v" MemStore.empty).2 none :=
  bulkInsert_edge_item_skipped memOps ⟨1, "e", 0⟩ [.vertex "b"]
    (createVertex "v" MemStore.empty).2 (createVertex "v" MemStore.empty).2 none (by rfl)

/-- C10: a successful `bulk_insert` over a sequence with no `Vertex`
items — however many `Edge` or property items it holds — reports
`id_range = None`. -/
theorem bulkInsert_idRange_none (ops : TransOps σ ε) (items : List BulkInsertItem)
    (s sf : σ) (res : BulkInsertResult)
    (hnov : ∀ it ∈ items, it.isVertex = false)
    (hrun : bulkInsert ops items s = (.ok res, sf)) :
    res.idRange = none :=
  bulkLoop_idRange_const ops items s none res sf hnov hrun

/-- Witness for C10: a batch of one edge item and one edge-property item
on the empty store succeeds with `id_range = None`. -/
theorem bulkInsert_idRange_none_witness :
    (⟨none⟩ : BulkInsertResult).idRange = none :=
  bulkInsert_idRange_none memOps
    [.edge ⟨1, "e", 2⟩, .edgeProperty ⟨1, "e", 2⟩ "p" .null] MemStore.empty
    ((bulkInsert memOps [.edge ⟨1, "e", 2⟩, .edgeProperty ⟨1, "e", 2⟩ "p" .null]
        MemStore.empty).2)
    ⟨none⟩ (by decide) (by rfl)

end BulkTheorems

section EngineTheorems

/-- If an endpoint of a triple is missing from the vertex table of a
well-formed store, no adjacency row for the triple exists. -/
theorem tripleExists_eq_false (s : MemStore) (e : GEdge)
    (hwf : endpointsWf s)
    (hmiss : lookupVert s e.out = none ∨ lookupVert s e.inb = none) :
    tripleExists s e = false := by
  rw [tripleExists, List.any_eq_false]
  intro en hen
  simp only [beq_iff_eq]
  intro hte
  obtain ⟨h1, h2⟩ := hwf en hen
  subst hte
  cases hmiss with
  | inl hm =>
    rw [show lookupVert s en.out = none from hm] at h1
    simp at h1
  | inr hm =>
    rw [show lookupVert s en.inb = none from hm] at h2
    simp at h2

/-- C2: creating an edge with a missing endpoint (for instance the
reserved id 0) returns `Ok(false)` rather than an error, a `Specific`
query for the triple returns the empty list, and deleting the triple is
an error-free no-op on the store. -/
theorem createEdge_missing_endpoint (s : MemStore) (e : GEdge)
    (hwf : endpointsWf s)
    (hmiss : lookupVert s e.out = none ∨ lookupVert s e.inb = none) :
    memOps.createEdgeOp e s = .ok (false, s) ∧
    getEdges (.specific [e]) s = [] ∧
    deleteEdges (.specific [e]) s = s := by
  have hnx := tripleExists_eq_false s e hwf hmiss
  have hcond : ((lookupVert s e.out).isNone || (lookupVert s e.inb).isNone) = true := by
    cases hmiss with
    | inl hm => simp [hm]
    | inr hm => simp [hm]
  have hspec : getEdges (.specific [e]) s = [] := by
    simp [getEdges, hnx]
  refine ⟨?_, hspec, ?_⟩
  · show Except.ok (createEdge e s) = _
    rw [createEdge, if_pos hcond]
  · rw [deleteEdges, hspec]
    simp

/-- Witness for C2: in the store holding only vertex 1, the dangling
triple `(1, "e", 0)` is rejected with `Ok(false)`, is not returned by a
`Specific` query, and deletes as a no-op. -/
theorem createEdge_missing_endpoint_witness :
    memOps.createEdgeOp ⟨1, "e", 0⟩ (createVertex "v" MemStore.empty).2 =
        .ok (false, (createVertex "v" MemStore.empty).2) ∧
      getEdges (.specific [⟨1, "e", 0⟩]) (createVertex "v" MemStore.empty).2 = [] ∧
      deleteEdges (.specific [⟨1, "e", 0⟩]) (createVertex "v" MemStore.empty).2 =
        (createVertex "v" MemStore.empty).2 :=
  createEdge_missing_endpoint (createVertex "v" MemStore.empty).2 ⟨1, "e", 0⟩
    (by intro en hen; simp [MemStore.empty, createVertex] at hen) (.inr rfl)

/-- Counting a triple over mapped adjacency rows counts the rows
denoting it. -/
theorem count_map_toEdge (e : GEdge) (l : List EdgeEntry) :
    (l.map EdgeEntry.toEdge).count e = l.countP (fun en => en.toEdge == e) := by
  induction l with
  | nil => rfl
  | cons a l ih => simp [List.count_cons, List.countP_cons, ih]

/-- In a duplicate-free row list, at most one row denotes any triple. -/
theorem countP_toEdge_le_one (e : GEdge) (l : List EdgeEntry)
    (h : l.Pairwise (fun a b => a.toEdge ≠ b.toEdge)) :
    l.countP (fun en => en.toEdge == e) ≤ 1 := by
  induction l with
  | nil => simp
  | cons a l ih =>
    rw [List.countP_cons]
    rcases List.pairwise_cons.mp h with ⟨ha, hl⟩
    by_cases hae : a.toEdge = e
    · have hz : l.countP (fun en => en.toEdge == e) = 0 := by
        rw [List.countP_eq_zero]
        intro b hb
        simp only [beq_iff_eq]
        intro hbe
        exact ha b hb (hae.trans hbe.symm)
      simp [hz, hae]
    · simp only [show (a.toEdge == e) = false by simp [hae], if_false]
      exact Nat.le_trans (Nat.le_of_eq (Nat.add_zero _)) (ih hl)

/-- The timestamp window and type filter of an unconstrained pipe stage
accept every row. -/
theorem filter_tsOk_typeOk_none (l : List EdgeEntry) :
    l.filter (fun en => tsOk none none en.ts && typeOk none en.t) = l := by
  induction l with
  | nil => rfl
  | cons a l ih => simp [List.filter_cons, tsOk, typeOk, ih]

/-- An unconstrained outbound pipe over a single existing vertex returns
the rows at that vertex in index order, truncated at the limit. -/
theorem getEdges_pipe_out (s : MemStore) (o : Nat) (ty : Ident) (lim : Nat)
    (hlook : lookupVert s o = some ty) :
    getEdges (.pipe (.specific [o]) .outbound none lim none none) s =
      ((s.edges.filter (fun en => en.out == o)).take lim).map EdgeEntry.toEdge := by
  rw [show getEdges (.pipe (.specific [o]) .outbound none lim none none) s =
      (getVertices (.specific [o]) s).flatMap (fun v =>
        ((((s.edges.filter (fun en => en.sideId .outbound == v.id)).filter
            (fun en => tsOk none none en.ts && typeOk none en.t)).take lim).map
          (fun en => en.toEdge))) from rfl]
  rw [show getVertices (.specific [o]) s = [⟨o, ty⟩] by simp [getVertices, hlook]]
  simp only [List.flatMap_cons, List.flatMap_nil, List.append_nil]
  rw [filter_tsOk_typeOk_none]
  rfl

/-- C1: for an edge whose endpoints exist, `create_edge` twice returns
`true` both times, and afterwards the `Specific` query for the triple
returns exactly `[e]` and a `Pipe` query over the outbound vertex (with
a limit that does not truncate it away) returns exactly one edge equal
to `e` — no duplicate row is created. -/
theorem createEdge_idempotent (s : MemStore) (e : GEdge) (lim : Nat)
    (ho : (lookupVert s e.out).isSome) (hi : (lookupVert s e.inb).isSome)
    (hdf : dupFree s)
    (hlim : (s.edges.filter (fun en => en.out == e.out)).length < lim) :
    (createEdge e s).1 = true ∧
    (createEdge e (createEdge e s).2).1 = true ∧
    getEdges (.specific [e]) (createEdge e (createEdge e s).2).2 = [e] ∧
    ((getEdges (.pipe (.specific [e.out]) .outbound none lim none none)
        (createEdge e (createEdge e s).2).2).count e) = 1 := by
  obtain ⟨to0, hto⟩ := Option.isSome_iff_exists.mp ho
  obtain ⟨ti0, hti⟩ := Option.isSome_iff_exists.mp hi
  by_cases hex : tripleExists s e = true
  · -- the triple already exists: both calls are no-op successes
    have h1 : createEdge e s = (true, s) := by
      simp [createEdge, hto, hti, hex]
    have hb1 : (createEdge e s).1 = true := by rw [h1]
    have hs1 : (createEdge e s).2 = s := by rw [h1]
    have hb2 : (createEdge e (createEdge e s).2).1 = true := by rw [hs1, h1]
    have hs2 : (createEdge e (createEdge e s).2).2 = s := by rw [hs1, h1]
    refine ⟨hb1, hb2, ?_, ?_⟩
    · rw [hs2]
      simp [getEdges, hex]
    · rw [hs2, getEdges_pipe_out s e.out to0 lim hto,
        List.take_of_length_le (Nat.le_of_lt hlim), count_map_toEdge]
      obtain ⟨en0, hen0, hen0e⟩ := List.any_eq_true.mp hex
      have heno : en0.out = e.out := by
        have hte : en0.toEdge = e := by simpa using hen0e
        rw [← hte]; rfl
      refine Nat.le_antisymm ?_ ?_
      · exact Nat.le_trans ((List.filter_sublist s.edges).countP_le _)
          (countP_toEdge_le_one e s.edges hdf)
      · rw [Nat.succ_le, List.countP_pos_iff]
        exact ⟨en0, List.mem_filter.mpr ⟨hen0, by simp [heno]⟩, hen0e⟩
  · -- the triple is new: the first call inserts a fresh row
    rw [Bool.not_eq_true] at hex
    have h1 : createEdge e s =
        (true, { s with edges := ⟨e.out, e.t, s.nextTs, e.inb⟩ :: s.edges,
                        nextTs := s.nextTs + 1 }) := by
      simp [createEdge, hto, hti, hex]
    have hnewe : EdgeEntry.toEdge ⟨e.out, e.t, s.nextTs, e.inb⟩ = e := rfl
    have hex2 : tripleExists
        { s with edges := ⟨e.out, e.t, s.nextTs, e.inb⟩ :: s.edges,
                 nextTs := s.nextTs + 1 } e = true := by
      simp [tripleExists, hnewe]
    have h2 : createEdge e
        { s with edges := ⟨e.out, e.t, s.nextTs, e.inb⟩ :: s.edges,
                 nextTs := s.nextTs + 1 } =
        (true, { s with edges := ⟨e.out, e.t, s.nextTs, e.inb⟩ :: s.edges,
                        nextTs := s.nextTs + 1 }) := by
      simp [createEdge, show lookupVert
          { s with edges := ⟨e.out, e.t, s.nextTs, e.inb⟩ :: s.edges,
                   nextTs := s.nextTs + 1 } e.out = some to0 from hto,
        show lookupVert
          { s with edges := ⟨e.out, e.t, s.nextTs, e.inb⟩ :: s.edges,
                   nextTs := s.nextTs + 1 } e.inb = some ti0 from hti, hex2]
    have hb1 : (createEdge e s).1 = true := by rw [h1]
    have hs1 : (createEdge e s).2 =
        { s with edges := ⟨e.out, e.t, s.nextTs, e.inb⟩ :: s.edges,
                 nextTs := s.nextTs + 1 } := by rw [h1]
    have hb2 : (createEdge e (createEdge e s).2).1 = true := by rw [hs1, h2]
    have hs2 : (createEdge e (createEdge e s).2).2 =
        { s with edges := ⟨e.out, e.t, s.nextTs, e.inb⟩ :: s.edges,
                 nextTs := s.nextTs + 1 } := by rw [hs1, h2]
    refine ⟨hb1, hb2, ?_, ?_⟩
    · rw [hs2]
      simp [getEdges, hex2]
    · rw [hs2, getEdges_pipe_out
        { s with edges := ⟨e.out, e.t, s.nextTs, e.inb⟩ :: s.edges,
                 nextTs := s.nextTs + 1 } e.out to0 lim hto]
      rw [show ((⟨e.out, e.t, s.nextTs, e.inb⟩ :: s.edges).filter
            (fun en => en.out == e.out)) =
          ⟨e.out, e.t, s.nextTs, e.inb⟩ ::
            s.edges.filter (fun en => en.out == e.out) by
        simp [List.filter_cons]]
      rw [List.take_of_length_le (by simpa using hlim), count_map_toEdge,
        List.countP_cons]
      have hz : (s.edges.filter (fun en => en.out == e.out)).countP
          (fun en => en.toEdge == e) = 0 := by
        rw [List.countP_eq_zero]
        intro b hb
        have hbmem := (List.mem_filter.mp hb).1
        rw [tripleExists, List.any_eq_false] at hex
        exact hex b hbmem
      rw [hz, hnewe]
      simp

/-- Witness for C1: in a store with the two vertices 1 and 2, creating
the edge `(1, "e", 2)` twice succeeds twice and each query returns the
edge exactly once. -/
theorem createEdge_idempotent_witness :
    (createEdge ⟨1, "e", 2⟩ (createVertex "v" (createVertex "v" MemStore.empty).2).2).1 = true ∧
      (createEdge ⟨1, "e", 2⟩
        (createEdge ⟨1, "e", 2⟩
          (createVertex "v" (createVertex "v" MemStore.empty).2).2).2).1 = true ∧
      getEdges (.specific [⟨1, "e", 2⟩])
        (createEdge ⟨1, "e", 2⟩
          (createEdge ⟨1, "e", 2⟩
            (createVertex "v" (createVertex "v" MemStore.empty).2).2).2).2 = [⟨1, "e", 2⟩] ∧
      ((getEdges (.pipe (.specific [1]) .outbound none 10 none none)
        (createEdge ⟨1, "e", 2⟩
          (createEdge ⟨1, "e", 2⟩
            (createVertex "v" (createVertex "v" MemStore.empty).2).2).2).2).count ⟨1, "e", 2⟩) = 1 :=
  createEdge_idempotent (createVertex "v" (createVertex "v" MemStore.empty).2).2
    ⟨1, "e", 2⟩ 10 (by rfl) (by rfl) (by simp [dupFree, MemStore.empty, createVertex])
    (by simp [MemStore.empty, createVertex])

end EngineTheorems

section JsonTheorems

/-- An i64-ranged value embeds as an `is_i64` number. -/
theorem mkI64_isI64 (a : Int) (ha2 : a < 2 ^ 63) : (mkI64 a).isI64 = true := by
  rw [mkI64]
  by_cases h : a < 0
  · rw [if_pos h]; rfl
  · rw [if_neg h, JNumber.isI64, decide_eq_true_eq, i64MaxNat]
    omega

/-- The embedded i64 value reads back unchanged. -/
theorem mkI64_asI64 (a : Int) : (mkI64 a).asI64 = a := by
  rw [mkI64]
  by_cases h : a < 0
  · rw [if_pos h]; rfl
  · rw [if_neg h, JNumber.asI64, Int.toNat_of_nonneg (by omega)]

/-- A NaN bit pattern decodes to NaN. -/
theorem decodeF64_nan (bits : Nat) (hnan : isNaNBits bits = true) :
    decodeF64 bits = .nan := by
  rw [isNaNBits, Bool.and_eq_true, decide_eq_true_eq, decide_eq_true_eq] at hnan
  obtain ⟨hx, hf⟩ := hnan
  have hx2 : bits / 4503599627370496 % 2048 = 2047 := hx
  have hf2 : bits % 4503599627370496 ≠ 0 := hf
  simp [decodeF64, hx2, hf2]

/-- NaN on the right gives no ordering. -/
theorem fcmp_nan_right (x : FVal) : fcmp x .nan = none := by
  cases x <;> rfl

/-- NaN on the left gives no ordering. -/
theorem fcmp_nan_left (y : FVal) : fcmp .nan y = none := by
  cases y <;> rfl

/-- C5: number comparison promotes across i64/u64/f64.  An i64 against a
u64 goes through `try_from`: in-range u64s compare as i64s, and an
out-of-range u64 makes the i64 `Less`; symmetrically a negative i64
against any u64 makes the u64 `Greater`.  Any comparison involving an
f64 is the native float comparison of the decoded operands, so a NaN
operand yields `None` against every number. -/
theorem cmpNumber_promotes (a : Int) (n : Nat) (m : JNumber) (bits : Nat)
    (ha1 : -(2 ^ 63) ≤ a) (ha2 : a < 2 ^ 63) (hnan : isNaNBits bits = true) :
    (∀ x y : JNumber, cmpValue (.num x) (.num y) = cmpNumber x y) ∧
    (2 ^ 63 ≤ n → cmpNumber (mkI64 a) (.posInt n) = some .lt) ∧
    (n ≤ i64MaxNat → cmpNumber (mkI64 a) (.posInt n) = some (icmp a n)) ∧
    (a < 0 → cmpNumber (.posInt n) (mkI64 a) = some .gt) ∧
    cmpNumber (.float bits) m = none ∧
    cmpNumber m (.float bits) = none ∧
    (∀ b2 : Nat, cmpNumber (.float bits) (.float b2) =
      fcmp (decodeF64 bits) (decodeF64 b2)) ∧
    (∀ b2 : Nat, cmpNumber (mkI64 a) (.float b2) =
      fcmp (.fin (a : ℚ)) (decodeF64 b2)) := by
  have hdn := decodeF64_nan bits hnan
  refine ⟨fun x y => rfl, ?_, ?_, ?_, ?_, ?_, fun b2 => rfl, ?_⟩
  · -- i64 vs out-of-range u64
    intro hn
    have hni : (JNumber.posInt n).isI64 = false := by
      rw [JNumber.isI64, decide_eq_false_iff_not, i64MaxNat]
      omega
    have hnn : ¬ (JNumber.posInt n).asU64 ≤ i64MaxNat := by
      rw [JNumber.asU64, i64MaxNat]
      omega
    rw [cmpNumber, if_pos (mkI64_isI64 a ha2), if_neg (by rw [hni]; exact Bool.false_ne_true),
      if_pos (show (JNumber.posInt n).isU64 = true from rfl), if_neg hnn]
  · -- i64 vs in-range u64: compared as i64s
    intro hn
    have hni : (JNumber.posInt n).isI64 = true := by
      rw [JNumber.isI64, decide_eq_true_eq]
      exact hn
    rw [cmpNumber, if_pos (mkI64_isI64 a ha2), if_pos hni, mkI64_asI64]
    rfl
  · -- any u64 vs negative i64
    intro hneg
    have hmk : mkI64 a = .negInt a := by rw [mkI64, if_pos hneg]
    rw [hmk, cmpNumber]
    by_cases hn : n ≤ i64MaxNat
    · rw [if_pos (show (JNumber.posInt n).isI64 = true by
        rw [JNumber.isI64, decide_eq_true_eq]; exact hn),
        if_pos (show (JNumber.negInt a).isI64 = true from rfl)]
      rw [show (JNumber.posInt n).asI64 = (n : Int) from rfl,
        show (JNumber.negInt a).asI64 = a from rfl, icmp,
        if_neg (by omega), if_pos (by omega)]
    · rw [if_neg (by
          rw [JNumber.isI64, decide_eq_true_eq]
          exact hn), if_pos (show (JNumber.posInt n).isU64 = true from rfl),
        if_pos (show (JNumber.negInt a).isI64 = true from rfl),
        if_neg (by rw [show (JNumber.negInt a).asI64 = a from rfl]; omega)]
  · -- NaN on the left
    rw [cmpNumber]
    cases m with
    | posInt p =>
      rw [if_neg (by exact Bool.false_ne_true), if_neg (by exact Bool.false_ne_true)]
      by_cases hp : (JNumber.posInt p).isI64 = true
      · rw [if_pos hp, JNumber.floatVal, hdn]; rfl
      · rw [if_neg hp, if_pos (show (JNumber.posInt p).isU64 = true from rfl),
          JNumber.floatVal, hdn]
        rfl
    | negInt v =>
      rw [if_neg (by exact Bool.false_ne_true), if_neg (by exact Bool.false_ne_true),
        if_pos (show (JNumber.negInt v).isI64 = true from rfl), JNumber.floatVal, hdn]
      rfl
    | float b2 =>
      rw [if_neg (by exact Bool.false_ne_true), if_neg (by exact Bool.false_ne_true),
        if_neg (by exact Bool.false_ne_true), if_neg (by exact Bool.false_ne_true),
        JNumber.floatVal, JNumber.floatVal, hdn, fcmp_nan_left]
  · -- NaN on the right
    rw [cmpNumber]
    cases m with
    | posInt p =>
      by_cases hp : (JNumber.posInt p).isI64 = true
      · rw [if_pos hp, if_neg (by exact Bool.false_ne_true),
          if_neg (by exact Bool.false_ne_true), JNumber.floatVal, hdn, fcmp_nan_right]
      · rw [if_neg hp, if_pos (show (JNumber.posInt p).isU64 = true from rfl),
          if_neg (by exact Bool.false_ne_true), if_neg (by exact Bool.false_ne_true),
          JNumber.floatVal, hdn, fcmp_nan_right]
    | negInt v =>
      rw [if_pos (show (JNumber.negInt v).isI64 = true from rfl),
        if_neg (by exact Bool.false_ne_true), if_neg (by exact Bool.false_ne_true),
        JNumber.floatVal, hdn, fcmp_nan_right]
    | float b1 =>
      rw [if_neg (by exact Bool.false_ne_true), if_neg (by exact Bool.false_ne_true),
        if_neg (by exact Bool.false_ne_true), if_neg (by exact Bool.false_ne_true),
        JNumber.floatVal, JNumber.floatVal, hdn, fcmp_nan_right]
  · -- i64 vs float: compared as floats after the cast
    intro b2
    rw [cmpNumber, if_pos (mkI64_isI64 a ha2),
      if_neg (by exact Bool.false_ne_true), if_neg (by exact Bool.false_ne_true),
      mkI64_asI64, JNumber.floatVal]

/-- Witness for C5: `-5` (an i64) compared against `2^63` (a u64 beyond
the i64 range) is `Less`. -/
theorem cmpNumber_promotes_witness :
    cmpNumber (mkI64 (-5)) (.posInt (2 ^ 63)) = some .lt :=
  (cmpNumber_promotes (-5) (2 ^ 63) (.posInt 3) 9221120237041090560
    (by decide) (by decide) (by decide)).2.1 (by decide)

/-- Every hash token stream opens with the variant's tag byte. -/
theorem hashValue_head (v : JValue) :
    (hashValue v).head? = some (.tag (variantIdx v)) := by
  cases v <;> rfl

/-- C8: the hash function is total (it is a Lean function) and writes a
distinct tag byte per variant (0 Null … 5 Object) before the payload; a
number hashes as its i64 value when `is_i64`, else as its u64 value when
`is_u64`, else as the raw 64-bit pattern of the float — so distinct NaN
bit patterns hash distinctly; arrays hash as the ordered concatenation
of their element hashes, and objects as each key followed by its value's
hash, in stored order. -/
theorem hashValue_spec (v w : JValue) (n : Nat) (a : Int) (b1 b2 : Nat)
    (x : JValue) (xs : List JValue) (k : String) (val : JValue)
    (es : List (String × JValue))
    (_hnan1 : isNaNBits b1 = true) (_hnan2 : isNaNBits b2 = true) (hne : b1 ≠ b2) :
    (hashValue v).head? = some (.tag (variantIdx v)) ∧
    (variantIdx .null = 0 ∧ (∀ b0 : Bool, variantIdx (.bool b0) = 1) ∧
      (∀ m : JNumber, variantIdx (.num m) = 2) ∧
      (∀ s0 : String, variantIdx (.str s0) = 3) ∧
      (∀ l : List JValue, variantIdx (.arr l) = 4) ∧
      (∀ l : List (String × JValue), variantIdx (.obj l) = 5)) ∧
    (variantIdx v ≠ variantIdx w → (hashValue v).head? ≠ (hashValue w).head?) ∧
    hashValue (.num (.posInt n)) =
      [.tag 2, if n ≤ i64MaxNat then .hi (n : Int) else .hu n] ∧
    hashValue (.num (.negInt a)) = [.tag 2, .hi a] ∧
    hashValue (.num (.float b1)) = [.tag 2, .hu b1] ∧
    hashValue (.num (.float b1)) ≠ hashValue (.num (.float b2)) ∧
    hashValue (.arr xs) = .tag 4 :: hashArr xs ∧
    hashArr (x :: xs) = hashValue x ++ hashArr xs ∧
    hashArr ([] : List JValue) = [] ∧
    hashValue (.obj es) = .tag 5 :: hashObjEntries es ∧
    hashObjEntries ((k, val) :: es) = .hs k :: (hashValue val ++ hashObjEntries es) ∧
    hashObjEntries ([] : List (String × JValue)) = [] := by
  refine ⟨hashValue_head v,
    ⟨rfl, fun b0 => rfl, fun m => rfl, fun s0 => rfl, fun l => rfl, fun l => rfl⟩,
    ?_, ?_, rfl, rfl, ?_, rfl, rfl, rfl, rfl, rfl, rfl⟩
  · intro hvw
    rw [hashValue_head v, hashValue_head w]
    intro hsome
    rw [Option.some.injEq, HashTok.tag.injEq] at hsome
    exact hvw hsome
  · by_cases hn : n ≤ i64MaxNat
    · simp [hashValue, JNumber.isI64, JNumber.asI64, hn]
    · simp [hashValue, JNumber.isI64, JNumber.isU64, JNumber.asU64, hn]
  · intro hcontra
    have hb : b1 = b2 := by
      simpa [hashValue, JNumber.isI64, JNumber.isU64] using hcontra
    exact hne hb

/-- Witness for C8: the two NaN payload patterns `0x7FF8000000000000`
and `0x7FF8000000000001` hash to different token streams. -/
theorem hashValue_spec_witness :
    hashValue (.num (.float 9221120237041090560)) ≠
      hashValue (.num (.float 9221120237041090561)) :=
  (hashValue_spec .null .null 0 0 9221120237041090560 9221120237041090561
    .null [] "" .null [] (by decide) (by decide) (by decide)).2.2.2.2.2.2.1

/-- Integer comparison is reflexive at `Equal`. -/
theorem icmp_self (a : Int) : icmp a a = .eq := by simp [icmp]

/-- Natural comparison is reflexive at `Equal`. -/
theorem ncmp_self (a : Nat) : ncmp a a = .eq := by simp [ncmp]

/-- Rational comparison is reflexive at `Equal`. -/
theorem qcmp_self (q : ℚ) : qcmp q q = .eq := by simp [qcmp]

/-- Lexicographic character comparison is reflexive at `Equal`. -/
theorem lexOrd_self (cs : List Char) : lexOrd cs cs = .eq := by
  induction cs with
  | nil => rfl
  | cons c cs ih => simp [lexOrd, ncmp_self, ih]

/-- String comparison is reflexive at `Equal`. -/
theorem strCmp_self (s : String) : strCmp s s = .eq := lexOrd_self s.data

/-- A non-NaN float value compares equal to itself. -/
theorem fcmp_self_of_ne_nan (x : FVal) (hx : x ≠ .nan) : fcmp x x = some .eq := by
  cases x with
  | nan => exact absurd rfl hx
  | negInf => rfl
  | posInf => rfl
  | fin q => simp [fcmp, qcmp_self]

/-- A pattern that is not a NaN decodes to something other than NaN. -/
theorem decodeF64_ne_nan (bits : Nat) (hb : isNaNBits bits = false) :
    decodeF64 bits ≠ .nan := by
  have hb2 : ¬(bits / 2 ^ 52 % 2 ^ 11 = 2047 ∧ ¬ bits % 2 ^ 52 = 0) := by
    intro hcon
    have ht : isNaNBits bits = true := by
      rw [isNaNBits, Bool.and_eq_true, decide_eq_true_eq, decide_eq_true_eq]
      exact hcon
    rw [ht] at hb
    exact Bool.noConfusion hb
  simp only [decodeF64]
  split
  next hex =>
    split
    next hfr => split <;> simp
    next hfr => exact absurd ⟨hex, hfr⟩ hb2
  next hex => simp

mutual

/-- A value compares `Equal` to itself exactly when it contains no NaN;
otherwise the self-comparison is undefined. -/
theorem cmpValue_self (v : JValue) :
    cmpValue v v = if hasNaN v then none else some .eq := by
  cases v with
  | null => rfl
  | bool b => cases b <;> rfl
  | num m =>
    cases m with
    | posInt p =>
      by_cases hp : p ≤ i64MaxNat
      · simp [cmpValue, cmpNumber, JNumber.isI64, hp, icmp_self, hasNaN]
      · simp [cmpValue, cmpNumber, JNumber.isI64, JNumber.isU64, hp, ncmp_self, hasNaN]
    | negInt a => simp [cmpValue, cmpNumber, JNumber.isI64, icmp_self, hasNaN]
    | float bits =>
      by_cases hb : isNaNBits bits = true
      · simp [cmpValue, cmpNumber, JNumber.isI64, JNumber.isU64, JNumber.floatVal,
          decodeF64_nan bits hb, hasNaN, hb, fcmp_nan_left]
      · rw [Bool.not_eq_true] at hb
        simp [cmpValue, cmpNumber, JNumber.isI64, JNumber.isU64, JNumber.floatVal,
          hasNaN, hb, fcmp_self_of_ne_nan _ (decodeF64_ne_nan bits hb)]
  | str s => simp [cmpValue, strCmp_self, hasNaN]
  | arr xs =>
    rw [show cmpValue (.arr xs) (.arr xs) = cmpArr xs xs from rfl, cmpArr_self xs]
    rfl
  | obj es =>
    rw [show cmpValue (.obj es) (.obj es) = cmpObj es es from rfl, cmpObj_self es]
    rfl

/-- Array elements compare `Equal` to themselves exactly when none
contains a NaN. -/
theorem cmpArr_self (xs : List JValue) :
    cmpArr xs xs = if hasNaNArr xs then none else some .eq := by
  cases xs with
  | nil => rfl
  | cons x rest =>
    by_cases hx : hasNaN x = true
    · simp [cmpArr, cmpValue_self x, hx, hasNaNArr]
    · rw [Bool.not_eq_true] at hx
      simp [cmpArr, cmpValue_self x, hx, hasNaNArr, cmpArr_self rest]

/-- Object entries compare `Equal` to themselves exactly when no value
contains a NaN. -/
theorem cmpObj_self (es : List (String × JValue)) :
    cmpObj es es = if hasNaNObjEntries es then none else some .eq := by
  cases es with
  | nil => rfl
  | cons p rest =>
    obtain ⟨k, v⟩ := p
    by_cases hv : hasNaN v = true
    · simp [cmpObj, strCmp_self, cmpValue_self v, hv, hasNaNObjEntries]
    · rw [Bool.not_eq_true] at hv
      simp [cmpObj, strCmp_self, cmpValue_self v, hv, hasNaNObjEntries,
        cmpObj_self rest]

end

/-- C6: hashing a value twice gives equal token streams, and a value is
`PartialEq`-equal to itself (partial comparison returns `Equal`) exactly
when it contains no NaN; a value containing NaN is unequal to itself
even though two bit-identical copies hash equal. -/
theorem json_hash_and_self_eq (v : JValue) :
    hashValue v = hashValue v ∧ (jsonEq v v = true ↔ hasNaN v = false) := by
  refine ⟨rfl, ?_⟩
  rw [jsonEq, cmpValue_self v]
  by_cases h : hasNaN v = true
  · simp [h]
  · rw [Bool.not_eq_true] at h
    simp only [h]
    decide

/-- Inversion for natural comparison at `Less`. -/
theorem ncmp_eq_lt_iff (a b : Nat) : ncmp a b = .lt ↔ a < b := by
  unfold ncmp
  split_ifs with h1 h2
  · simp [h1]
  · simp
    omega
  · simp
    omega

/-- Inversion for natural comparison at `Equal`. -/
theorem ncmp_eq_eq_iff (a b : Nat) : ncmp a b = .eq ↔ a = b := by
  unfold ncmp
  split_ifs with h1 h2
  · simp
    omega
  · simp
    omega
  · simp
    omega

/-- Inversion of lexicographic order at a cons pair: either the heads
are related or they are equal and the tails are ordered. -/
theorem lex_cons_inv {a b : Nat} {l1 l2 : List Nat}
    (h : List.Lex (· < ·) (a :: l1) (b :: l2)) :
    a < b ∨ (a = b ∧ List.Lex (· < ·) l1 l2) := by
  cases h with
  | cons h2 => exact Or.inr ⟨rfl, h2⟩
  | rel h2 => exact Or.inl h2

/-- Lexicographic order on lists with equal heads reduces to the tails. -/
theorem lex_cons_same (a : Nat) (l1 l2 : List Nat) :
    List.Lex (· < ·) (a :: l1) (a :: l2) ↔ List.Lex (· < ·) l1 l2 := by
  constructor
  · intro h
    rcases lex_cons_inv h with h2 | ⟨-, h2⟩
    · exact absurd h2 (lt_irrefl a)
    · exact h2
  · exact List.Lex.cons

/-- The character comparison orders lexicographically: `Less` coincides
with the lexicographic strict order on the scalar-value sequences. -/
theorem lexOrd_eq_lt_iff : ∀ (cs ds : List Char),
    lexOrd cs ds = .lt ↔
      List.Lex (· < ·) (cs.map Char.toNat) (ds.map Char.toNat)
  | [], [] => by
    constructor
    · intro h; exact Ordering.noConfusion h
    · intro h; cases h
  | [], d :: ds => by
    constructor
    · intro _; exact List.Lex.nil
    · intro _; rfl
  | c :: cs, [] => by
    constructor
    · intro h; exact Ordering.noConfusion h
    · intro h; cases h
  | c :: cs, d :: ds => by
    rw [lexOrd]
    cases hcd : ncmp c.toNat d.toNat with
    | lt =>
      simp only [List.map_cons]
      constructor
      · intro _; exact List.Lex.rel ((ncmp_eq_lt_iff ..).mp hcd)
      · intro _; trivial
    | eq =>
      have hceq : c.toNat = d.toNat := (ncmp_eq_eq_iff ..).mp hcd
      simp only [List.map_cons]
      rw [hceq, lex_cons_same, lexOrd_eq_lt_iff cs ds]
    | gt =>
      have hgt : d.toNat < c.toNat := by
        unfold ncmp at hcd
        split_ifs at hcd with h1 h2
        exact h2
      simp only [List.map_cons]
      constructor
      · intro h; exact Ordering.noConfusion h
      · intro h
        rcases lex_cons_inv h with h2 | ⟨h2, -⟩
        · exact absurd h2 (by omega)
        · exact absurd h2 (by omega)

/-- A strict extension of a list whose shared elements compare equal to
themselves is `Greater`, and the shorter operand `Less`. -/
theorem cmpArr_strict_extension (xs ys : List JValue)
    (h : ∀ z ∈ xs, cmpValue z z = some .eq) (hys : ys ≠ []) :
    cmpArr xs (xs ++ ys) = some .lt ∧ cmpArr (xs ++ ys) xs = some .gt := by
  induction xs with
  | nil =>
    cases ys with
    | nil => exact absurd rfl hys
    | cons y t => exact ⟨rfl, rfl⟩
  | cons x xs ih =>
    have hx := h x (List.mem_cons_self ..)
    have hrest := ih (fun z hz => h z (List.mem_cons_of_mem _ hz))
    rw [List.cons_append]
    constructor
    · rw [show cmpArr (x :: xs) (x :: (xs ++ ys)) =
          (match cmpValue x x with
           | some .eq => cmpArr xs (xs ++ ys)
           | r => r) from rfl, hx]
      exact hrest.1
    · rw [show cmpArr (x :: (xs ++ ys)) (x :: xs) =
          (match cmpValue x x with
           | some .eq => cmpArr (xs ++ ys) xs
           | r => r) from rfl, hx]
      exact hrest.2

/-- The object analogue of `cmpArr_strict_extension`: keys always
compare equal to themselves, so only the values' self-comparisons
matter. -/
theorem cmpObj_strict_extension (es tail : List (String × JValue))
    (h : ∀ p ∈ es, cmpValue p.2 p.2 = some .eq) (htail : tail ≠ []) :
    cmpObj es (es ++ tail) = some .lt ∧ cmpObj (es ++ tail) es = some .gt := by
  induction es with
  | nil =>
    cases tail with
    | nil => exact absurd rfl htail
    | cons p t => obtain ⟨k, v⟩ := p; exact ⟨rfl, rfl⟩
  | cons p es ih =>
    obtain ⟨k, v⟩ := p
    have hv := h (k, v) (List.mem_cons_self ..)
    have hrest := ih (fun q hq => h q (List.mem_cons_of_mem _ hq))
    rw [List.cons_append]
    constructor
    · rw [show cmpObj ((k, v) :: es) ((k, v) :: (es ++ tail)) =
          (match (match strCmp k k with | .eq => cmpValue v v | o => some o) with
           | some .eq => cmpObj es (es ++ tail)
           | r => r) from rfl, strCmp_self, hv]
      exact hrest.1
    · rw [show cmpObj ((k, v) :: (es ++ tail)) ((k, v) :: es) =
          (match (match strCmp k k with | .eq => cmpValue v v | o => some o) with
           | some .eq => cmpObj (es ++ tail) es
           | r => r) from rfl, strCmp_self, hv]
      exact hrest.2

/-- Values of different variants never compare. -/
theorem cmpValue_cross_variant (v w : JValue)
    (h : variantIdx v ≠ variantIdx w) : cmpValue v w = none := by
  cases v <;> cases w <;> first | rfl | exact absurd rfl h

/-- Counterexample for C7 as frozen: `[NaN]` is a strict prefix of
`[NaN, null]`, yet the comparison is `None`, not `Less` — the partial
order is not total within the array variant and the shorter-is-less rule
fails when the shared prefix contains NaN. -/
theorem cmpArr_nan_not_lt :
    cmpValue (.arr [.num (.float 9221120237041090560)])
        (.arr ([.num (.float 9221120237041090560)] ++ [.null])) = none ∧
      cmpValue (.arr [.num (.float 9221120237041090560)])
          (.arr ([.num (.float 9221120237041090560)] ++ [.null])) ≠
        some .lt := by
  constructor <;> decide

/-- C7 (amended): the partial order is total within the Null, Bool and
String variants — Null equals Null, booleans order `false < true`,
strings order lexicographically — arrays and objects compare elementwise
(objects by (key, value) pairs in stored order) with the shorter operand
less than the longer when one is a strict prefix of the other and every
element of the shared prefix compares equal to itself (which holds
whenever the prefix contains no NaN); and any two values of different
variants (other than two numbers) compare as `None`. -/
theorem cmpValue_partial_order (b1 b2 : Bool) (s1 s2 : String)
    (x y v w : JValue) (xs ys zs : List JValue)
    (k1 k2 : String) (v1 v2 : JValue) (es1 es2 es tail : List (String × JValue))
    (hxs : ∀ z ∈ xs, cmpValue z z = some .eq)
    (hzs : zs ≠ [])
    (hes : ∀ p ∈ es, cmpValue p.2 p.2 = some .eq)
    (htail : tail ≠ [])
    (hvw : variantIdx v ≠ variantIdx w) :
    cmpValue .null .null = some .eq ∧
    cmpValue (.bool b1) (.bool b2) = some (bcmp b1 b2) ∧
    bcmp false true = .lt ∧
    cmpValue (.str s1) (.str s2) = some (strCmp s1 s2) ∧
    (strCmp s1 s2 = .lt ↔
      List.Lex (· < ·) (s1.data.map Char.toNat) (s2.data.map Char.toNat)) ∧
    cmpValue (.arr (x :: xs)) (.arr (y :: ys)) =
      (match cmpValue x y with
       | some .eq => cmpArr xs ys
       | r => r) ∧
    cmpValue (.arr []) (.arr []) = some .eq ∧
    cmpValue (.arr []) (.arr (y :: ys)) = some .lt ∧
    cmpValue (.arr (x :: xs)) (.arr []) = some .gt ∧
    cmpValue (.arr xs) (.arr (xs ++ zs)) = some .lt ∧
    cmpValue (.arr (xs ++ zs)) (.arr xs) = some .gt ∧
    cmpValue (.obj ((k1, v1) :: es1)) (.obj ((k2, v2) :: es2)) =
      (match (match strCmp k1 k2 with | .eq => cmpValue v1 v2 | o => some o) with
       | some .eq => cmpObj es1 es2
       | r => r) ∧
    cmpValue (.obj []) (.obj []) = some .eq ∧
    cmpValue (.obj es) (.obj (es ++ tail)) = some .lt ∧
    cmpValue (.obj (es ++ tail)) (.obj es) = some .gt ∧
    cmpValue v w = none := by
  refine ⟨rfl, rfl, rfl, rfl, lexOrd_eq_lt_iff s1.data s2.data, rfl, rfl, rfl, rfl,
    ?_, ?_, rfl, rfl, ?_, ?_, cmpValue_cross_variant v w hvw⟩
  · exact (cmpArr_strict_extension xs zs hxs hzs).1
  · exact (cmpArr_strict_extension xs zs hxs hzs).2
  · exact (cmpObj_strict_extension es tail hes htail).1
  · exact (cmpObj_strict_extension es tail hes htail).2

/-- Witness for the amended C7: `[null]` is a strict prefix of
`[null, true]` with a NaN-free shared prefix, and indeed compares
`Less`; `null` and `true` are of different variants and compare `None`. -/
theorem cmpValue_partial_order_witness :
    cmpValue (.arr [.null]) (.arr ([.null] ++ [.bool true])) = some .lt ∧
      cmpValue .null (.bool true) = none :=
  ⟨((cmpValue_partial_order true true "" "" .null .null .null (.bool true)
      [.null] [] [.bool true] "" "" .null .null [] [] [] [(("k" : String), JValue.null)]
      (by intro z hz; rw [List.mem_singleton] at hz; subst hz; rfl) (List.cons_ne_nil _ _)
      (by intro p hp; exact absurd hp (List.not_mem_nil p)) (List.cons_ne_nil _ _)
      (by decide)).2.2.2.2.2.2.2.2.2.1),
    ((cmpValue_partial_order true true "" "" .null .null .null (.bool true)
      [.null] [] [.bool true] "" "" .null .null [] [] [] [(("k" : String), JValue.null)]
      (by intro z hz; rw [List.mem_singleton] at hz; subst hz; rfl) (List.cons_ne_nil _ _)
      (by intro p hp; exact absurd hp (List.not_mem_nil p)) (List.cons_ne_nil _ _)
      (by decide)).2.2.2.2.2.2.2.2.2.2.2.2.2.2.2)⟩

end JsonTheorems

end IndraDB
